import Mathlib

/-!
# Verification of the Tracklistify identification pipeline core

A shallow embedding of the parts of the `tracklistify` package that the
specification's claims are about:

* `Track` construction and the track matcher (`src/tracklistify/core/track.py`),
* the rate limiter and circuit breaker (`src/tracklistify/utils/rate_limiter.py`),
* the cache front-end and index (`src/tracklistify/cache/base.py`, `cache/index.py`),
* the identification manager (`src/tracklistify/utils/identification.py`).

Python wall-clock times are modelled as natural numbers of seconds, floats
(confidence values, thresholds) as rationals.  String-classification helpers
(`\d`, `\w`, `\s`, `str.strip`) are modelled on their ASCII fragment; Python's
Unicode classes accept further non-ASCII characters that never occur in the
claims under study.
-/

namespace Tracklistify

/-! ## Python string helpers -/

/-- The ASCII characters removed by Python's `str.strip()` (the ASCII part of
`str.isspace`). -/
def pyIsSpace (c : Char) : Bool :=
  c = ' ' || c = '\t' || c = '\n' || c = '\r' ||
  c = '\x0b' || c = '\x0c' || c = '\x1c' || c = '\x1d' || c = '\x1e' || c = '\x1f'

/-- `str.strip()`: drop leading and trailing whitespace. -/
def pyStrip (s : String) : String :=
  String.mk (((s.toList.dropWhile pyIsSpace).reverse.dropWhile pyIsSpace).reverse)

/-- The regex class `\d`, on its ASCII fragment: a decimal digit. -/
def isPyDigit (c : Char) : Bool := c.isDigit

/-- `str.lower()` on its ASCII fragment, character by character. -/
def pyLower (s : String) : String := String.mk (s.toList.map Char.toLower)

/-- The regex class `\w`, on its ASCII fragment: alphanumeric or underscore. -/
def isPyWordChar (c : Char) : Bool := c.isAlphanum || c = '_'

/-- Character shape `\d\d:\d\d:\d\d` covering the whole character list. -/
def digitsColonShape : List Char → Bool
  | [h1, h2, c1, m1, m2, c2, s1, s2] =>
    isPyDigit h1 && isPyDigit h2 && c1 = ':' && isPyDigit m1 && isPyDigit m2 &&
    c2 = ':' && isPyDigit s1 && isPyDigit s2
  | _ => false

/-- `re.match(r"^\d\x7b2\x7d:\d\x7b2\x7d:\d\x7b2\x7d$", s)`: in Python, `$`
matches at the end of the string or just before a single trailing newline, so
the pattern also accepts `"hh:mm:ss\n"`. -/
def pyMatchTimePattern (s : String) : Bool :=
  digitsColonShape s.toList ||
  (match s.toList.reverse with
   | '\n' :: rest => digitsColonShape rest.reverse
   | _ => false)

/-- The spec's reading of the pattern (claim C10): exactly two-digit
`HH:MM:SS`, nothing else.  Compared against `pyMatchTimePattern`, which is
what the source's regex actually accepts. -/
def strictTimePattern (s : String) : Bool :=
  digitsColonShape s.toList

/-! ## Track (`core/track.py`) -/

/-- An identified track.  The Python `config` field is the process-global
configuration object, identical on all tracks of a run, and is omitted; the
generated dataclass equality therefore coincides with field equality here. -/
structure Track where
  songName : String
  artist : String
  timeInMix : String
  confidence : ℚ
deriving DecidableEq, Repr

/-- `Track.__init__` with its fail-fast validation.  Python raises
`ValueError`; the embedding returns `none` in exactly those cases. -/
def trackMk (songName artist timeInMix : String) (confidence : ℚ) : Option Track :=
  if pyStrip songName = "" then none
  else if pyStrip artist = "" then none
  else if !(pyMatchTimePattern timeInMix) then none
  else if confidence < 0 ∨ 100 < confidence then none
  else some { songName := pyStrip songName, artist := pyStrip artist,
              timeInMix := timeInMix, confidence := confidence }

/-- Split a character list at every colon (used to model
`datetime.strptime(s, "%H:%M:%S")` below). -/
def splitOnColon : List Char → List (List Char)
  | [] => [[]]
  | ':' :: rest => [] :: splitOnColon rest
  | c :: rest =>
    match splitOnColon rest with
    | g :: gs => (c :: g) :: gs
    | [] => [[c]]

/-- One `strptime` numeric field: one or two ASCII digits. -/
def parseTimeComponent (cs : List Char) : Option ℕ :=
  match cs with
  | [d] => if isPyDigit d then some (d.toNat - 48) else none
  | [d1, d2] =>
    if isPyDigit d1 && isPyDigit d2 then some ((d1.toNat - 48) * 10 + (d2.toNat - 48))
    else none
  | _ => none

/-- `Track.time_to_seconds`: `datetime.strptime(time_in_mix, "%H:%M:%S")`
converted to seconds, and `0` when parsing fails (the logged error path).
`strptime` accepts one or two digits per field with `H ≤ 23`, `M ≤ 59`, and
the `datetime` constructor rejects leap seconds, so `S ≤ 59`. -/
def timeToSeconds (t : Track) : ℕ :=
  match (splitOnColon t.timeInMix.toList).map parseTimeComponent with
  | [some h, some m, some s] =>
    if h ≤ 23 ∧ m ≤ 59 ∧ s ≤ 59 then h * 3600 + m * 60 + s else 0
  | _ => 0

/-- `normalize` inside `Track.is_similar_to`:
`re.sub(r"[^\w\s]", "", s.lower())`. -/
def normalizeName (s : String) : String :=
  String.mk ((pyLower s).toList.filter (fun c => isPyWordChar c || pyIsSpace c))

/-- `Track.is_similar_to`: normalized song and artist both equal. -/
def isSimilarTo (t u : Track) : Bool :=
  normalizeName t.songName = normalizeName u.songName &&
  normalizeName t.artist = normalizeName u.artist

/-! ## TrackMatcher (`core/track.py`) -/

/-- `TrackMatcher` state: the working set plus the configuration read in
`__init__` (`time_threshold` and `_min_confidence`; `max_duplicates` is only
used by `merge_nearby_tracks`, which no claim concerns, and is omitted). -/
structure MatcherState where
  tracks : List Track
  timeThreshold : ℚ
  minConfidence : ℚ
deriving DecidableEq, Repr

/-- Absolute difference of the two tracks' `time_to_seconds`. -/
def timeDiff (t u : Track) : ℕ :=
  max (timeToSeconds t) (timeToSeconds u) - min (timeToSeconds t) (timeToSeconds u)

/-- The neighbor test in `add_track`:
`time_diff <= self.time_threshold and track.is_similar_to(existing_track)`. -/
def simWithin (threshold : ℚ) (track existing : Track) : Bool :=
  decide ((timeDiff track existing : ℚ) ≤ threshold) && isSimilarTo track existing

/-- Python's `max(xs, key=lambda t: t.confidence)` on the non-empty list
`x :: xs`: the first element attaining the maximal confidence. -/
def pyMaxByConfidence (x : Track) (xs : List Track) : Track :=
  xs.foldl (fun best e => if best.confidence < e.confidence then e else best) x

/-- `list.remove(t)`: remove the first element equal to `t` (Python `==` on
the dataclass is field equality). -/
def removeFirst : List Track → Track → List Track
  | [], _ => []
  | x :: xs, t => if x = t then xs else x :: removeFirst xs t

/-- `for similar_track in similar_tracks: self.tracks.remove(similar_track)`. -/
def eraseAllFirst (toRemove : List Track) (l : List Track) : List Track :=
  toRemove.foldl removeFirst l

/-- `TrackMatcher.add_track`. -/
def addTrack (st : MatcherState) (track : Track) : MatcherState :=
  if track.confidence < st.minConfidence then st
  else
    match st.tracks.filter (fun e => simWithin st.timeThreshold track e) with
    | [] => { st with tracks := st.tracks ++ [track] }
    | s :: ss =>
      let best := pyMaxByConfidence s (ss ++ [track])
      if best = track then
        { st with tracks := eraseAllFirst (s :: ss) st.tracks ++ [track] }
      else st

/-- The dedup key used by `get_unique_tracks`:
`f"\x7btrack.artist.lower()\x7d|\x7btrack.song_name.lower()\x7d"`. -/
def uniqueKey (t : Track) : String :=
  pyLower t.artist ++ "|" ++ pyLower t.songName

/-- One iteration of the dedup loop in `get_unique_tracks`.  Python keeps a
`seen_tracks` set alongside `unique_tracks`; a key is in the set exactly when
some element of `unique_tracks` carries it, so membership is modelled by
`find?` on the accumulator. -/
def uniqueStep (acc : List Track) (track : Track) : List Track :=
  match acc.find? (fun u => uniqueKey u == uniqueKey track) with
  | none => acc ++ [track]
  | some existing =>
    if existing.confidence < track.confidence then removeFirst acc existing ++ [track]
    else acc

/-- `sorted(tracks, key=lambda t: t.time_to_seconds())`, as a stable
insertion sort: an element is inserted after all elements with an equal or
smaller key. -/
def insertByTime (t : Track) : List Track → List Track
  | [] => [t]
  | x :: xs =>
    if timeToSeconds t < timeToSeconds x then t :: x :: xs
    else x :: insertByTime t xs

/-- Stable sort by `time_to_seconds`, folding `insertByTime` left to right. -/
def sortTracksByTime (l : List Track) : List Track :=
  l.foldl (fun acc t => insertByTime t acc) []

/-- `TrackMatcher.get_unique_tracks`: sort by time in mix, collapse by
`uniqueKey` keeping the strictly higher confidence instance, sort again. -/
def getUniqueTracks (l : List Track) : List Track :=
  sortTracksByTime ((sortTracksByTime l).foldl uniqueStep [])

/-! ## Rate limiter and circuit breaker (`utils/rate_limiter.py`)

Wall-clock time is modelled in whole seconds; the sequential (single-task)
semantics is embedded: during an `acquire` no other task releases the
semaphore or consumes tokens. -/

/-- `CircuitState`. -/
inductive CircuitState
  | closed
  | opened
  | halfOpen
deriving DecidableEq, Repr

/-- `RateLimitMetrics`. -/
structure RateLimitMetrics where
  totalRequests : ℕ := 0
  rateLimitedRequests : ℕ := 0
  totalWaitTime : ℕ := 0
  lastRateLimit : Option ℕ := none
  rateLimitWindows : List (ℕ × ℕ) := []
  circuitTrips : ℕ := 0
  lastCircuitTrip : Option ℕ := none
deriving DecidableEq, Repr

/-- `ProviderLimits`.  `semAvailable` is the current value of the
`asyncio.Semaphore`; `alerts` counts `_send_alert` invocations. -/
structure ProviderLimits where
  maxRequestsPerMinute : ℕ := 25
  maxConcurrentRequests : ℕ := 1
  tokens : ℕ := 25
  lastUpdate : ℕ := 0
  semAvailable : ℕ := 1
  metrics : RateLimitMetrics := {}
  circuitState : CircuitState := .closed
  circuitOpenTime : Option ℕ := none
  consecutiveFailures : ℕ := 0
deriving DecidableEq, Repr

/-- `ProviderLimits.__post_init__`, registered at time `now`: a full token
bucket and all concurrency slots free. -/
def initLimits (rpm concurrent now : ℕ) : ProviderLimits :=
  { maxRequestsPerMinute := rpm, maxConcurrentRequests := concurrent,
    tokens := rpm, lastUpdate := now, semAvailable := concurrent }

/-- The configuration attributes read through `getattr` in the rate limiter,
with the source's defaults. -/
structure RLConfig where
  circuitBreakerEnabled : Bool := true
  circuitBreakerResetTimeout : ℕ := 60
  circuitBreakerThreshold : ℕ := 5
  rateLimitEnabled : Bool := true
deriving DecidableEq, Repr

/-- `RateLimiter._refill_tokens`. -/
def refillTokens (limits : ProviderLimits) (now : ℕ) : ProviderLimits :=
  let elapsed := now - limits.lastUpdate
  if 1 ≤ elapsed then
    let tokensToAdd := elapsed * limits.maxRequestsPerMinute / 60
    if 0 < tokensToAdd then
      { limits with
          tokens := min limits.maxRequestsPerMinute (limits.tokens + tokensToAdd),
          lastUpdate := now }
    else limits
  else limits

/-- `RateLimiter._update_circuit_breaker`, reporting `success` at `now`. -/
def updateCircuitBreaker (cfg : RLConfig) (limits : ProviderLimits)
    (success : Bool) (now : ℕ) : ProviderLimits :=
  if !cfg.circuitBreakerEnabled then limits
  else if success then
    let l := { limits with consecutiveFailures := 0 }
    if l.circuitState = CircuitState.halfOpen then
      { l with circuitState := CircuitState.closed }
    else l
  else
    let l := { limits with consecutiveFailures := limits.consecutiveFailures + 1 }
    if cfg.circuitBreakerThreshold ≤ l.consecutiveFailures ∧
        l.circuitState = CircuitState.closed then
      { l with
          circuitState := CircuitState.opened,
          circuitOpenTime := some now,
          metrics := { l.metrics with
            circuitTrips := l.metrics.circuitTrips + 1,
            lastCircuitTrip := some now } }
    else l

/-- The token-polling loop of `acquire` (a 10 ms poll, at one-second
granularity): the earliest time in `[start, start + timeout)` at which the
refilled bucket holds a token, if any. -/
def findTokenTime (limits : ProviderLimits) (start timeout : ℕ) : Option ℕ :=
  (List.range timeout).findSome? fun d =>
    if 0 < (refillTokens limits (start + d)).tokens then some (start + d) else none

/-- The circuit-breaker gate at the top of `acquire` denies: the breaker is
enabled, the circuit is open, and `circuit_open_time` is unset, zero (falsy),
or not yet past the reset timeout. -/
def circuitDenies (cfg : RLConfig) (limits : ProviderLimits) (now : ℕ) : Bool :=
  cfg.circuitBreakerEnabled && limits.circuitState == CircuitState.opened &&
  !(match limits.circuitOpenTime with
    | some t0 => decide (t0 ≠ 0 ∧ cfg.circuitBreakerResetTimeout < now - t0)
    | none => false)

/-- The lazy `Open → HalfOpen` transition inside `acquire`, taken once the
open-circuit gate did not deny. -/
def cbProbe (cfg : RLConfig) (limits : ProviderLimits) : ProviderLimits :=
  if cfg.circuitBreakerEnabled && limits.circuitState == CircuitState.opened then
    { limits with circuitState := CircuitState.halfOpen }
  else limits

/-- Taking the concurrency slot and counting the request
(`limits.metrics.total_requests += 1`, reached only with the semaphore
held). -/
def countRequest (limits : ProviderLimits) : ProviderLimits :=
  { limits with
      semAvailable := limits.semAvailable - 1,
      metrics := { limits.metrics with
        totalRequests := limits.metrics.totalRequests + 1 } }

/-- The token-bucket stage of `acquire`: immediately grant when rate
limiting is disabled; otherwise wait for a token until the timeout, with the
metrics updates of the source (a grant that had to wait is counted as rate
limited; a timeout records the window and releases the slot). -/
def tokenPhase (cfg : RLConfig) (limits : ProviderLimits) (now timeout : ℕ) :
    ProviderLimits × Bool :=
  if !cfg.rateLimitEnabled then (limits, true)
  else
    match findTokenTime limits now timeout with
    | some t =>
      let l := refillTokens limits t
      let l := { l with tokens := l.tokens - 1 }
      if now < t then
        ({ l with metrics := { l.metrics with
            rateLimitedRequests := l.metrics.rateLimitedRequests + 1,
            lastRateLimit := some t,
            rateLimitWindows := l.metrics.rateLimitWindows ++ [(now, t)] } }, true)
      else (l, true)
    | none =>
      ({ limits with
          semAvailable := limits.semAvailable + 1,
          metrics := { limits.metrics with
            lastRateLimit := some (now + timeout),
            rateLimitWindows :=
              limits.metrics.rateLimitWindows ++ [(now, now + timeout)] } },
       false)

/-- `RateLimiter.acquire` for an already-registered provider, called at time
`now` with the given timeout, under the sequential semantics (the semaphore
wait can only succeed immediately, since no other task releases it).  The
circuit gate runs first and rejected requests are not counted. -/
def acquire (cfg : RLConfig) (limits : ProviderLimits) (now timeout : ℕ) :
    ProviderLimits × Bool :=
  if circuitDenies cfg limits now then (limits, false)
  else
    let l1 := cbProbe cfg limits
    if l1.semAvailable = 0 then (l1, false)
    else tokenPhase cfg (countRequest l1) now timeout

/-- One attempt of the token-bucket stage in isolation (`_refill_tokens`
followed by the consume branch of `acquire`), polled at time `t`.  Used to
study the rolling-window conservation claim. -/
def tokenPoll (limits : ProviderLimits) (t : ℕ) : ProviderLimits × Bool :=
  let l := refillTokens limits t
  if 0 < l.tokens then ({ l with tokens := l.tokens - 1 }, true) else (l, false)

/-- One step of `runPolls`: poll the bucket and count a grant. -/
def pollStep (st : ProviderLimits × ℕ) (t : ℕ) : ProviderLimits × ℕ :=
  let r := tokenPoll st.1 t
  (r.1, st.2 + if r.2 then 1 else 0)

/-- Run a sequence of token-bucket polls, counting the granted ones. -/
def runPolls (limits : ProviderLimits) (polls : List ℕ) : ProviderLimits × ℕ :=
  polls.foldl pollStep (limits, 0)

/-! ## Cache front-end (`cache/base.py`) -/

/-- The error channel of `BaseCache.get`/`set`.  The source raises only
`TypeError` (non-string key); the spec names an `InvalidKey` failure that the
claims refer to. -/
inductive CacheError
  | invalidKey
  | typeError
deriving DecidableEq, Repr

/-- The `_stats` counters of `BaseCache` touched by `get`/`delete`. -/
structure CacheStats where
  hits : ℕ := 0
  misses : ℕ := 0
  invalidations : ℕ := 0
  entries : ℕ := 0
deriving DecidableEq, Repr

/-- A stored `CacheEntry` (metadata collapsed to what `get` inspects). -/
structure StoredEntry (V : Type) where
  value : V
  created : ℕ := 0
  lastAccessed : ℕ := 0
  ttl : Option ℕ := none
  compression : Bool := false
deriving DecidableEq, Repr

/-- `BaseCache` state: the storage backend's key-to-entry association plus
the statistics counters. -/
structure CacheState (V : Type) where
  storage : List (String × StoredEntry V)
  stats : CacheStats := {}
deriving DecidableEq, Repr

/-- Storage lookup (`self._storage.get(key)`). -/
def storageFind (st : CacheState V) (key : String) : Option (StoredEntry V) :=
  (st.storage.find? (fun p => p.1 == key)).map Prod.snd

/-- `BaseCache.delete`: drop the entry and bump the counters. -/
def baseCacheDelete (st : CacheState V) (key : String) : CacheState V :=
  { st with
      storage := st.storage.filter (fun p => p.1 != key),
      stats := { st.stats with
        entries := st.stats.entries - 1,
        invalidations := st.stats.invalidations + 1 } }

/-- `BaseCache.get`, parameterized by the active invalidation strategy
(`isValid` and `updateMetadata`).  A key is always a string in the embedding,
so the `isinstance` guard (the only raising path) never fires and the
`Except.error` channel is never used; an empty key proceeds like any other. -/
def baseCacheGet [DecidableEq V] (isValid : StoredEntry V → Bool)
    (updateMetadata : StoredEntry V → StoredEntry V)
    (st : CacheState V) (key : String) :
    Except CacheError (Option V × CacheState V) :=
  match storageFind st key with
  | none =>
    .ok (none, { st with stats := { st.stats with misses := st.stats.misses + 1 } })
  | some entry =>
    if !(isValid entry) then
      let st := baseCacheDelete st key
      .ok (none, { st with stats := { st.stats with
        invalidations := st.stats.invalidations + 1,
        misses := st.stats.misses + 1 } })
    else
      let updated := updateMetadata entry
      let newStorage := st.storage.map (fun p => if p.1 == key then (p.1, updated) else p)
      let st := if updated ≠ entry then { st with storage := newStorage } else st
      .ok (some (updateMetadata entry).value,
           { st with stats := { st.stats with hits := st.stats.hits + 1 } })

/-! ## Cache index (`cache/index.py`) -/

/-- One index record (`self._index[key]`). -/
structure IndexEntry where
  filename : String
  created : ℕ
  lastAccessed : ℕ
  size : ℕ
  ttl : Option ℕ
  compression : Bool
deriving DecidableEq, Repr

/-- The embedded metadata of an on-disk cache file (`entry["metadata"]`),
each field optional with `_rebuild_index` defaults. -/
structure FileMeta where
  created : Option ℕ := none
  lastAccessed : Option ℕ := none
  size : Option ℕ := none
  ttl : Option ℕ := none
  compression : Option Bool := none
deriving DecidableEq, Repr

/-- An on-disk `*.cache` file as seen by `_rebuild_index`: either unreadable
(corrupt JSON / IO error / bad compression), or a self-describing entry with
its embedded key (`entry.get("key")`, the empty string standing for a missing
or falsy key) and metadata. -/
inductive DiskFile
  | corrupt
  | entry (filename : String) (key : String) (meta : FileMeta)
deriving DecidableEq, Repr

/-- Python dict assignment `self._index[key] = v`: update in place if the key
exists, else append (insertion order preserved). -/
def indexUpsert (idx : List (String × IndexEntry)) (k : String) (e : IndexEntry) :
    List (String × IndexEntry) :=
  if idx.any (fun p => p.1 == k) then
    idx.map (fun p => if p.1 == k then (k, e) else p)
  else idx ++ [(k, e)]

/-- One file of the `_rebuild_index` scan: corrupt files are skipped with a
warning, and an entry is recorded only when its embedded key is truthy. -/
def rebuildStep (now : ℕ) (idx : List (String × IndexEntry)) (f : DiskFile) :
    List (String × IndexEntry) :=
  match f with
  | .corrupt => idx
  | .entry filename key meta =>
    if key = "" then idx
    else indexUpsert idx key
      { filename := filename,
        created := meta.created.getD now,
        lastAccessed := meta.lastAccessed.getD now,
        size := meta.size.getD 0,
        ttl := meta.ttl,
        compression := meta.compression.getD false }

/-- `CacheIndex._rebuild_index` scanning the given files at time `now`. -/
def rebuildIndex (files : List DiskFile) (now : ℕ) : List (String × IndexEntry) :=
  files.foldl (rebuildStep now) []

/-- The state of the index file on disk when `CacheIndex.load` runs. -/
inductive IndexFileState
  | missing
  | unreadable
  | parsed (idx : List (String × IndexEntry))
deriving DecidableEq, Repr

/-- `CacheIndex.load`: use the parsed index file when it exists and parses,
otherwise rebuild from the cache files. -/
def loadIndex (file : IndexFileState) (files : List DiskFile) (now : ℕ) :
    List (String × IndexEntry) :=
  match file with
  | .parsed idx => idx
  | .missing => rebuildIndex files now
  | .unreadable => rebuildIndex files now

/-- The keys of the readable on-disk entries: files that parse and embed a
(truthy) key. -/
def readableEntryKeys (files : List DiskFile) : List String :=
  files.filterMap fun f =>
    match f with
    | .corrupt => none
    | .entry _ key _ => if key = "" then none else some key

/-! ## Identification manager (`utils/identification.py`) -/

/-- An audio segment as consumed by `identify_tracks`
(`int(segment.start_time)`). -/
structure AudioSegment where
  startTime : ℕ
deriving DecidableEq, Repr

/-- Zero-padding to at least two digits (`f"\x7b_:02d\x7d"`). -/
def pad2 (n : ℕ) : String :=
  if n < 10 then "0" ++ toString n else toString n

/-- `format_seconds_to_hhmmss`. -/
def formatSecondsToHHMMSS (seconds : ℕ) : String :=
  pad2 (seconds / 3600) ++ ":" ++ pad2 (seconds % 3600 / 60) ++ ":" ++ pad2 (seconds % 60)

/-- An entry of the `artists` list in a provider response. -/
structure ArtistInfo where
  name : Option String
deriving DecidableEq, Repr

/-- The first element of the `music` list: either the empty (falsy) dict, or
a dict whose recognized fields are each optional. -/
inductive MusicElem
  | emptyDict
  | info (title : Option String) (artists : Option (List ArtistInfo)) (score : Option ℚ)
deriving DecidableEq, Repr

/-- The outcome of `await provider.identify_track(segment)`: an exception, a
`None` result, or a response whose `metadata.music` list is `some` when
present (both `metadata` and `music` missing collapse to the default
`[\x7b\x7d]`). -/
inductive ProviderResult
  | failure
  | noMatch
  | response (music : Option (List MusicElem))
deriving DecidableEq, Repr

/-- The externally observable pipeline effects of `identify_tracks`.  The
constructors beyond `providerCall` name the cache and rate-limiter
interactions the specification describes; the source emits none of them. -/
inductive PipeEvent
  | providerCall (segment : AudioSegment)
  | cacheQuery
  | rlAcquire
  | rlRelease
  | cbReport
deriving DecidableEq, Repr

/-- The per-segment body of `identify_tracks` after the provider call:
extract metadata, build the `Track`, feed the matcher.  Every logged-and-
skipped path (no metadata, `IndexError` on an empty list, `ValueError` from
`Track.__init__`) returns the matcher unchanged and no track. -/
def processSegment (matcher : MatcherState) (segment : AudioSegment)
    (resp : ProviderResult) : MatcherState × Option Track :=
  match resp with
  | .failure => (matcher, none)
  | .noMatch => (matcher, none)
  | .response music =>
    match (music.getD [MusicElem.emptyDict]).head? with
    | none => (matcher, none)
    | some .emptyDict => (matcher, none)
    | some (.info title artists score) =>
      let timeInMix := formatSecondsToHHMMSS segment.startTime
      match artists with
      | some [] => (matcher, none)
      | none =>
        match trackMk (title.getD "Unknown Title") "Unknown Artist" timeInMix
            (score.getD 100) with
        | none => (matcher, none)
        | some tr => (addTrack matcher tr, some tr)
      | some (a :: _) =>
        match trackMk (title.getD "Unknown Title") (a.name.getD "Unknown Artist")
            timeInMix (score.getD 100) with
        | none => (matcher, none)
        | some tr => (addTrack matcher tr, some tr)

/-- The result of a full `identify_tracks` run. -/
structure PipeResult where
  events : List PipeEvent
  matcher : MatcherState
  identifiedCount : ℕ
  result : List Track
deriving DecidableEq, Repr

/-- The matcher as `TrackMatcher.__init__` builds it: empty working set,
configured time threshold, and `_min_confidence = 0`. -/
def initMatcher (timeThreshold : ℚ) : MatcherState :=
  { tracks := [], timeThreshold := timeThreshold, minConfidence := 0 }

/-- One loop iteration of `identify_tracks`: the provider call (the only
external interaction) followed by `processSegment`. -/
def pipeStep (resp : AudioSegment → ProviderResult)
    (st : List PipeEvent × MatcherState × ℕ) (segment : AudioSegment) :
    List PipeEvent × MatcherState × ℕ :=
  let r := processSegment st.2.1 segment (resp segment)
  (st.1 ++ [PipeEvent.providerCall segment], r.1,
   st.2.2 + if r.2.isSome then 1 else 0)

/-- `IdentificationManager.identify_tracks` over the given segments, with the
provider's behaviour given by `resp` and the configured time threshold
`timeThreshold`. -/
def identifyTracks (resp : AudioSegment → ProviderResult)
    (segments : List AudioSegment) (timeThreshold : ℚ) : PipeResult :=
  let final := segments.foldl (pipeStep resp) ([], initMatcher timeThreshold, 0)
  { events := final.1, matcher := final.2.1, identifiedCount := final.2.2,
    result := getUniqueTracks final.2.1.tracks }

/-! ## Claim C10: Track construction validation -/

/-- C10 (counterexample): `Track.__init__` accepts a `time_in_mix` that is
not exactly two-digit `HH:MM:SS` — Python's `$` also matches before a single
trailing newline, so `"12:34:56\n"` constructs successfully even though it
does not match the exact pattern. -/
theorem track_init_trailing_newline_cx :
    (trackMk "a" "b" "12:34:56\n" 50).isSome = true ∧
    strictTimePattern "12:34:56\n" = false := by decide

/-- C10 (amended): construction succeeds exactly when the stripped title and
artist are non-empty, the confidence lies in `[0, 100]`, and `time_in_mix`
matches two-digit `HH:MM:SS` optionally followed by one trailing newline
(the actual semantics of the source's `re.match` with `$`); on success the
stored title and artist are the whitespace-stripped inputs. -/
theorem track_init_characterization (s a t : String) (c : ℚ) :
    ((trackMk s a t c).isSome = true ↔
      (pyStrip s ≠ "" ∧ pyStrip a ≠ "" ∧ pyMatchTimePattern t = true ∧
       0 ≤ c ∧ c ≤ 100)) ∧
    ∀ tr, trackMk s a t c = some tr →
      tr.songName = pyStrip s ∧ tr.artist = pyStrip a ∧
      tr.timeInMix = t ∧ tr.confidence = c := by
  constructor
  · by_cases h1 : pyStrip s = "" <;> by_cases h2 : pyStrip a = "" <;>
      by_cases h3 : pyMatchTimePattern t <;> by_cases h4 : c < 0 ∨ 100 < c <;>
      simp [trackMk, h1, h2, h3, h4]
    · intro hc
      rcases h4 with h | h
      · exact absurd hc (not_le.mpr h)
      · exact h
    · push_neg at h4
      exact h4
  · intro tr htr
    unfold trackMk at htr
    split at htr
    · simp at htr
    · split at htr
      · simp at htr
      · split at htr
        · simp at htr
        · split at htr
          · simp at htr
          · cases htr
            exact ⟨rfl, rfl, rfl, rfl⟩

/-- C10 (witness): a concrete successful construction, via
`track_init_characterization`. -/
theorem track_init_characterization_w :
    (trackMk " My Song " "DJ Example" "01:02:03" 75).isSome = true ∧
    Option.map Track.songName (trackMk " My Song " "DJ Example" "01:02:03" 75) =
      some "My Song" := by
  have h := track_init_characterization " My Song " "DJ Example" "01:02:03" 75
  refine ⟨h.1.mpr ⟨by decide, by decide, by decide, by norm_num, by norm_num⟩, ?_⟩
  have hm : (trackMk " My Song " "DJ Example" "01:02:03" 75).isSome = true :=
    h.1.mpr ⟨by decide, by decide, by decide, by norm_num, by norm_num⟩
  obtain ⟨tr, htr⟩ := Option.isSome_iff_exists.mp hm
  have := (h.2 tr htr).1
  rw [htr]
  simp [this]
  decide

/-! ## Claim C9: empty cache key -/

/-- The empty cache state over natural-number values, used as the concrete
input for C9. -/
def emptyNatCacheState : CacheState ℕ := { storage := [] }

/-- C9 (counterexample): `BaseCache.get("")` does not fail with `InvalidKey`
(the source only guards against non-string keys); the empty string is looked
up like any other key, yielding an ordinary miss. -/
theorem cache_get_empty_key_cx :
    baseCacheGet (fun _ => true) id emptyNatCacheState "" =
      Except.ok (none, { emptyNatCacheState with stats := { misses := 1 } }) ∧
    baseCacheGet (fun _ => true) id emptyNatCacheState "" ≠
      Except.error CacheError.invalidKey := by
  constructor
  · rfl
  · intro h
    simp [baseCacheGet, storageFind, emptyNatCacheState] at h

/-- C9 (amended): a `get` with the empty-string key is treated as an
ordinary lookup, not an error: when no entry is stored under `""` it returns
absent and increments the miss counter. -/
theorem cache_get_empty_key_ordinary_miss {V : Type} [DecidableEq V]
    (isValid : StoredEntry V → Bool) (upd : StoredEntry V → StoredEntry V)
    (st : CacheState V) (h : storageFind st "" = none) :
    baseCacheGet isValid upd st "" =
      Except.ok (none,
        { st with stats := { st.stats with misses := st.stats.misses + 1 } }) := by
  unfold baseCacheGet
  rw [h]

/-- C9 (witness): the amended statement at the empty concrete cache. -/
theorem cache_get_empty_key_ordinary_miss_w :
    baseCacheGet (fun _ => true) id emptyNatCacheState "" =
      Except.ok (none, { emptyNatCacheState with stats := { misses := 1 } }) :=
  cache_get_empty_key_ordinary_miss (fun _ => true) id emptyNatCacheState rfl

/-! ## Claim C2: circuit breaker on a failed HalfOpen probe -/

/-- Concrete limits sitting in the HalfOpen state with an old trip time. -/
def halfOpenLimits : ProviderLimits :=
  { circuitState := CircuitState.halfOpen, circuitOpenTime := some 10,
    consecutiveFailures := 7 }

/-- C2 (counterexample): reporting a failed call while HalfOpen does *not*
re-open the circuit — the Open transition in `_update_circuit_breaker`
requires the current state to be Closed, so the state stays HalfOpen and
`circuit_open_time` is not restarted. -/
theorem half_open_failure_cx :
    (updateCircuitBreaker {} halfOpenLimits false 100).circuitState ≠
      CircuitState.opened ∧
    (updateCircuitBreaker {} halfOpenLimits false 100).circuitState =
      CircuitState.halfOpen ∧
    (updateCircuitBreaker {} halfOpenLimits false 100).circuitOpenTime =
      some 10 := by decide

/-- C2 (amended): with the breaker enabled, reporting a failure in the
HalfOpen state only increments `consecutive_failures`; the circuit stays
HalfOpen, and `circuit_open_time`, the trip counters and alerts are
untouched (re-opening happens only from Closed once the failure threshold is
reached). -/
theorem half_open_failure_keeps_half_open (cfg : RLConfig)
    (limits : ProviderLimits) (now : ℕ)
    (hen : cfg.circuitBreakerEnabled = true)
    (hst : limits.circuitState = CircuitState.halfOpen) :
    updateCircuitBreaker cfg limits false now =
      { limits with consecutiveFailures := limits.consecutiveFailures + 1 } := by
  unfold updateCircuitBreaker
  rw [hen]
  simp [hst]

/-- C2 (witness): the amended statement at the concrete HalfOpen limits. -/
theorem half_open_failure_keeps_half_open_w :
    updateCircuitBreaker {} halfOpenLimits false 100 =
      { halfOpenLimits with consecutiveFailures := 8 } :=
  half_open_failure_keeps_half_open {} halfOpenLimits 100 rfl rfl

/-! ## Claim C7: index rebuild on missing or corrupt index file -/

/-- Python dict assignment never changes the key set except by adding the
assigned key. -/
theorem indexUpsert_keys_mem (idx : List (String × IndexEntry)) (k k' : String)
    (e : IndexEntry) :
    k' ∈ (indexUpsert idx k e).map Prod.fst ↔ k' ∈ idx.map Prod.fst ∨ k' = k := by
  unfold indexUpsert
  split
  · rename_i hany
    have hkeys : (idx.map fun p => if p.1 == k then (k, e) else p).map Prod.fst =
        idx.map Prod.fst := by
      rw [List.map_map]
      apply List.map_congr_left
      intro p _
      by_cases h : p.1 = k
      · simp [h]
      · simp [h]
    rw [hkeys]
    obtain ⟨p, hp, hpk⟩ := List.any_eq_true.mp hany
    have hkmem : k ∈ idx.map Prod.fst :=
      List.mem_map.mpr ⟨p, hp, eq_of_beq hpk⟩
    constructor
    · exact Or.inl
    · rintro (h | rfl)
      · exact h
      · exact hkmem
  · simp

/-- The key set produced by folding the rebuild scan over a list of files. -/
theorem rebuildIndex_keys_aux (now : ℕ) (files : List DiskFile) :
    ∀ acc k, k ∈ (files.foldl (rebuildStep now) acc).map Prod.fst ↔
      k ∈ acc.map Prod.fst ∨ k ∈ readableEntryKeys files := by
  induction files with
  | nil => simp [readableEntryKeys]
  | cons f fs ih =>
    intro acc k
    rw [List.foldl_cons, ih]
    cases f with
    | corrupt =>
      simp [rebuildStep, readableEntryKeys, List.filterMap_cons]
    | entry fn key meta =>
      by_cases hk : key = ""
      · simp [rebuildStep, hk, readableEntryKeys, List.filterMap_cons]
      · simp only [rebuildStep, if_neg hk, indexUpsert_keys_mem,
          readableEntryKeys, List.filterMap_cons]
        simp [hk]
        tauto

/-- C7 (confirmed): when the index file is missing or cannot be parsed,
`load` rebuilds the index by scanning the on-disk cache files, and the
rebuilt index's key set equals the set of keys of the readable on-disk
entries (the files that parse and embed a key). -/
theorem index_rebuild_keys (files : List DiskFile) (now : ℕ) :
    loadIndex IndexFileState.missing files now = rebuildIndex files now ∧
    loadIndex IndexFileState.unreadable files now = rebuildIndex files now ∧
    ∀ k, k ∈ (rebuildIndex files now).map Prod.fst ↔
      k ∈ readableEntryKeys files := by
  refine ⟨rfl, rfl, fun k => ?_⟩
  unfold rebuildIndex
  rw [rebuildIndex_keys_aux]
  simp

/-! ## Claim C6: totalRequests accounting in acquire -/

/-- `_refill_tokens` touches only the bucket fields. -/
theorem refillTokens_metrics (limits : ProviderLimits) (now : ℕ) :
    (refillTokens limits now).metrics = limits.metrics := by
  unfold refillTokens
  by_cases h1 : 1 ≤ now - limits.lastUpdate
  · by_cases h2 :
        0 < (now - limits.lastUpdate) * limits.maxRequestsPerMinute / 60 <;>
      simp [h1, h2]
  · simp [h1]

/-- Concrete closed limits whose only obstacle is an exhausted concurrency
semaphore. -/
def semBlockedLimits : ProviderLimits := { initLimits 2 1 0 with semAvailable := 0 }

/-- C6 (counterexample): an `acquire` denied because the concurrency slot
cannot be obtained within the timeout also increments nothing — yet it is
not a denial due to an open circuit, contradicting the claim that every
other `acquire` increments `total_requests` exactly once. -/
theorem acquire_sem_deny_uncounted_cx :
    (acquire {} semBlockedLimits 0 1).2 = false ∧
    (acquire {} semBlockedLimits 0 1).1.metrics.totalRequests =
      semBlockedLimits.metrics.totalRequests ∧
    circuitDenies {} semBlockedLimits 0 = false := by decide

/-- C6 (amended): an `acquire` increments `total_requests` exactly once
unless it is denied by the open-circuit gate or by failing to obtain a
concurrency slot, in which case it increments nothing; no call ever
increments it more than once. -/
theorem acquire_total_requests_delta (cfg : RLConfig) (limits : ProviderLimits)
    (now timeout : ℕ) :
    (acquire cfg limits now timeout).1.metrics.totalRequests =
      limits.metrics.totalRequests +
        (if circuitDenies cfg limits now = false ∧ 0 < limits.semAvailable
         then 1 else 0) := by
  have hprobe_sem : (cbProbe cfg limits).semAvailable = limits.semAvailable := by
    unfold cbProbe; split <;> rfl
  have hprobe_met : (cbProbe cfg limits).metrics = limits.metrics := by
    unfold cbProbe; split <;> rfl
  have hphase : ∀ l : ProviderLimits,
      (tokenPhase cfg l now timeout).1.metrics.totalRequests =
        l.metrics.totalRequests := by
    intro l
    unfold tokenPhase
    split
    · rfl
    · split
      · split <;> simp [refillTokens_metrics]
      · rfl
  unfold acquire
  by_cases hcd : circuitDenies cfg limits now
  · simp [hcd]
  · by_cases hsem : (cbProbe cfg limits).semAvailable = 0
    · have hsem0 : limits.semAvailable = 0 := hprobe_sem ▸ hsem
      simp [hcd, hsem, hsem0, hprobe_met]
    · have hsem0 : limits.semAvailable ≠ 0 := fun h => hsem (hprobe_sem.trans h)
      simp only [hcd, Bool.false_eq_true, if_false, hsem, hphase]
    -- remaining: countRequest adds one
      simp [countRequest, hprobe_met, hcd, Nat.pos_of_ne_zero hsem0]

/-! ## Claim C1: identification manager orchestration -/

/-- The event trace of the identification loop: exactly one provider call
per segment, in order, appended to whatever came before. -/
theorem pipeFold_events (resp : AudioSegment → ProviderResult)
    (segments : List AudioSegment) :
    ∀ acc : List PipeEvent × MatcherState × ℕ,
      (segments.foldl (pipeStep resp) acc).1 =
        acc.1 ++ segments.map PipeEvent.providerCall := by
  induction segments with
  | nil => simp
  | cons s ss ih =>
    intro acc
    rw [List.foldl_cons, ih]
    simp [pipeStep]

/-- The matcher component of the identification loop is the fold of
`processSegment` alone. -/
theorem pipeFold_matcher (resp : AudioSegment → ProviderResult)
    (segments : List AudioSegment) :
    ∀ acc : List PipeEvent × MatcherState × ℕ,
      (segments.foldl (pipeStep resp) acc).2.1 =
        segments.foldl (fun m s => (processSegment m s (resp s)).1) acc.2.1 := by
  induction segments with
  | nil => intro acc; rfl
  | cons s ss ih =>
    intro acc
    rw [List.foldl_cons, ih, List.foldl_cons]
    rfl

/-- A provider used in the C1 counterexample: always reports no match. -/
def noMatchProvider : AudioSegment → ProviderResult := fun _ => ProviderResult.noMatch

/-- A provider used in the C1 witness: every call raises. -/
def failProvider : AudioSegment → ProviderResult := fun _ => ProviderResult.failure

/-- C1 (counterexample): on a one-segment run, `identify_tracks` calls the
provider without ever querying the cache or acquiring from the rate limiter
— the claimed cache-first, admission-controlled orchestration does not
happen at all. -/
theorem identify_tracks_no_cache_cx :
    (identifyTracks noMatchProvider [⟨0⟩] 30).events =
      [PipeEvent.providerCall ⟨0⟩] ∧
    PipeEvent.cacheQuery ∉ (identifyTracks noMatchProvider [⟨0⟩] 30).events ∧
    PipeEvent.rlAcquire ∉ (identifyTracks noMatchProvider [⟨0⟩] 30).events := by
  have h : (identifyTracks noMatchProvider [⟨0⟩] 30).events =
      [PipeEvent.providerCall ⟨0⟩] := rfl
  refine ⟨h, ?_, ?_⟩ <;> rw [h] <;> decide

/-- C1 (amended): `identify_tracks` performs exactly one direct provider
call per segment, in caller order, with no cache queries, no rate-limiter
admissions and no circuit-breaker reports; a segment on which the provider
raises is skipped without affecting the matcher state or the final result
computed from the remaining segments. -/
theorem identify_tracks_direct_provider_calls
    (resp : AudioSegment → ProviderResult) (segments pre post : List AudioSegment)
    (seg : AudioSegment) (threshold : ℚ) :
    (identifyTracks resp segments threshold).events =
      segments.map PipeEvent.providerCall ∧
    PipeEvent.cacheQuery ∉ (identifyTracks resp segments threshold).events ∧
    PipeEvent.rlAcquire ∉ (identifyTracks resp segments threshold).events ∧
    (resp seg = ProviderResult.failure →
      (identifyTracks resp (pre ++ seg :: post) threshold).matcher =
        (identifyTracks resp (pre ++ post) threshold).matcher ∧
      (identifyTracks resp (pre ++ seg :: post) threshold).result =
        (identifyTracks resp (pre ++ post) threshold).result) := by
  have hev : (identifyTracks resp segments threshold).events =
      segments.map PipeEvent.providerCall := by
    show (segments.foldl (pipeStep resp) ([], initMatcher threshold, 0)).1 = _
    rw [pipeFold_events]
    rfl
  refine ⟨hev, ?_, ?_, ?_⟩
  · rw [hev]
    simp
  · rw [hev]
    simp
  · intro hfail
    have hm : (identifyTracks resp (pre ++ seg :: post) threshold).matcher =
        (identifyTracks resp (pre ++ post) threshold).matcher := by
      show ((pre ++ seg :: post).foldl (pipeStep resp)
            ([], initMatcher threshold, 0)).2.1 =
          ((pre ++ post).foldl (pipeStep resp) ([], initMatcher threshold, 0)).2.1
      rw [pipeFold_matcher, pipeFold_matcher]
      rw [List.foldl_append, List.foldl_append, List.foldl_cons]
      have : (processSegment
          (pre.foldl (fun m s => (processSegment m s (resp s)).1)
            (([], initMatcher threshold, 0) :
              List PipeEvent × MatcherState × ℕ).2.1) seg (resp seg)).1 =
          pre.foldl (fun m s => (processSegment m s (resp s)).1)
            (([], initMatcher threshold, 0) :
              List PipeEvent × MatcherState × ℕ).2.1 := by
        rw [hfail]
        rfl
      rw [this]
    refine ⟨hm, ?_⟩
    show getUniqueTracks (identifyTracks resp (pre ++ seg :: post) threshold).matcher.tracks =
      getUniqueTracks (identifyTracks resp (pre ++ post) threshold).matcher.tracks
    rw [hm]

/-- C1 (witness): the amended statement at a concrete failing provider. -/
theorem identify_tracks_direct_provider_calls_w :
    (identifyTracks failProvider [⟨0⟩] 30).matcher =
      (identifyTracks failProvider [] 30).matcher :=
  ((identify_tracks_direct_provider_calls failProvider [] [] [] ⟨0⟩ 30).2.2.2 rfl).1

/-! ## Claim C3: rate limiter conservation -/

/-- Division is superadditive: the floors of two summands never exceed the
floor of the sum. -/
theorem nat_div_add_div_le (a b c : ℕ) (hc : 0 < c) :
    a / c + b / c ≤ (a + b) / c := by
  rw [Nat.le_div_iff_mul_le hc]
  calc (a / c + b / c) * c = a / c * c + b / c * c := by ring
  _ ≤ a + b := Nat.add_le_add (Nat.div_mul_le_self a c) (Nat.div_mul_le_self b c)

/-- A refill preserves the bucket accounting: the cap, and the potential
`tokens + grants ≤ R + lastUpdate * R / 60`. -/
theorem refill_bound (lim : ProviderLimits) (t R g : ℕ)
    (hR : lim.maxRequestsPerMinute = R) (htok : lim.tokens ≤ R)
    (hinv : lim.tokens + g ≤ R + lim.lastUpdate * R / 60) :
    (refillTokens lim t).maxRequestsPerMinute = R ∧
    (refillTokens lim t).tokens ≤ R ∧
    (refillTokens lim t).tokens + g ≤ R + (refillTokens lim t).lastUpdate * R / 60 ∧
    ((refillTokens lim t).lastUpdate = lim.lastUpdate ∨
      (refillTokens lim t).lastUpdate = t) := by
  unfold refillTokens
  by_cases h1 : 1 ≤ t - lim.lastUpdate
  · by_cases h2 : 0 < (t - lim.lastUpdate) * lim.maxRequestsPerMinute / 60
    · simp only [h1, if_true, h2]
      refine ⟨hR, ?_, ?_, Or.inr trivial⟩
      · simp [hR]
      · have hle : lim.lastUpdate ≤ t := by omega
        have key : lim.lastUpdate * R / 60 + (t - lim.lastUpdate) * R / 60 ≤
            t * R / 60 := by
          have := nat_div_add_div_le (lim.lastUpdate * R)
            ((t - lim.lastUpdate) * R) 60 (by norm_num)
          have harith : lim.lastUpdate * R + (t - lim.lastUpdate) * R = t * R := by
            rw [← Nat.add_mul, Nat.add_sub_cancel' hle]
          rwa [harith] at this
        calc min lim.maxRequestsPerMinute
              (lim.tokens + (t - lim.lastUpdate) * lim.maxRequestsPerMinute / 60) + g
            ≤ (lim.tokens + (t - lim.lastUpdate) * lim.maxRequestsPerMinute / 60) + g :=
              Nat.add_le_add_right (Nat.min_le_right _ _) g
          _ = (lim.tokens + g) + (t - lim.lastUpdate) * R / 60 := by rw [hR]; ring
          _ ≤ (R + lim.lastUpdate * R / 60) + (t - lim.lastUpdate) * R / 60 :=
              Nat.add_le_add_right hinv _
          _ = R + (lim.lastUpdate * R / 60 + (t - lim.lastUpdate) * R / 60) := by ring
          _ ≤ R + t * R / 60 := Nat.add_le_add_left key R
    · simp only [h1, if_true, h2, if_false]
      exact ⟨hR, htok, hinv, Or.inl trivial⟩
  · simp only [h1, if_false]
    exact ⟨hR, htok, hinv, Or.inl trivial⟩

/-- Folding token polls keeps the grant count below the cumulative budget. -/
theorem runPolls_bound_aux (R T : ℕ) (polls : List ℕ) :
    ∀ (lim : ProviderLimits) (g : ℕ),
      lim.maxRequestsPerMinute = R → lim.tokens ≤ R →
      lim.tokens + g ≤ R + lim.lastUpdate * R / 60 →
      lim.lastUpdate ≤ T → (∀ t ∈ polls, t ≤ T) →
      (polls.foldl pollStep (lim, g)).2 ≤ R + T * R / 60 := by
  induction polls with
  | nil =>
    intro lim g hR htok hinv hlast _
    calc g ≤ lim.tokens + g := Nat.le_add_left _ _
      _ ≤ R + lim.lastUpdate * R / 60 := hinv
      _ ≤ R + T * R / 60 :=
        Nat.add_le_add_left
          (Nat.div_le_div_right (Nat.mul_le_mul_right R hlast)) R
  | cons t ts ih =>
    intro lim g hR htok hinv hlast hT
    obtain ⟨h1, h2, h3, h4⟩ := refill_bound lim t R g hR htok hinv
    have hlast2 : (refillTokens lim t).lastUpdate ≤ T := by
      rcases h4 with h | h
      · rw [h]; exact hlast
      · rw [h]; exact hT t (List.mem_cons_self t ts)
    rw [List.foldl_cons]
    unfold pollStep tokenPoll
    by_cases hpos : 0 < (refillTokens lim t).tokens
    · simp only [hpos, if_true]
      apply ih
      · exact h1
      · exact Nat.le_trans (Nat.sub_le _ _) h2
      · have : (refillTokens lim t).tokens - 1 + (g + 1) =
            (refillTokens lim t).tokens + g := by omega
        rw [this]
        exact h3
      · exact hlast2
      · exact fun x hx => hT x (List.mem_cons_of_mem t hx)
    · simp only [hpos, if_false]
      apply ih
      · exact h1
      · exact h2
      · simpa using h3
      · exact hlast2
      · exact fun x hx => hT x (List.mem_cons_of_mem t hx)

/-- C3 (counterexample): with `maxRequestsPerMinute = 6`, eleven admissions
are granted at times all inside a single rolling 60-second window (six
immediately from the initial burst capacity, then one per refill at 10, 20,
30, 40, 50 seconds), exceeding `R = 6`. -/
theorem rolling_window_cx :
    (runPolls (initLimits 6 2 0) [0, 0, 0, 0, 0, 0, 10, 20, 30, 40, 50]).2 = 11 ∧
    ([0, 0, 0, 0, 0, 0, 10, 20, 30, 40, 50].all fun t => t < 60) = true ∧
    6 < 11 := by decide

/-- C3 (amended): the token bucket does not bound grants inside a rolling
window by `R` — the initial burst plus continuous refill allow up to about
`2R`.  What holds is the cumulative budget: starting from a freshly
registered provider at time `0`, at most `R + T * R / 60` admissions are
granted by the token-bucket stage up to time `T`, for all `R`, `T` and poll
sequences. -/
theorem token_bucket_cumulative_bound (R C T : ℕ) (polls : List ℕ)
    (hT : ∀ t ∈ polls, t ≤ T) :
    (runPolls (initLimits R C 0) polls).2 ≤ R + T * R / 60 := by
  unfold runPolls
  apply runPolls_bound_aux R T polls (initLimits R C 0) 0 rfl (Nat.le_refl R)
  · simp [initLimits]
  · exact Nat.zero_le T
  · exact hT

/-- C3 (witness): the cumulative bound at `R = 2`, polls at 0, 1, 2 seconds. -/
theorem token_bucket_cumulative_bound_w :
    (runPolls (initLimits 2 2 0) [0, 1, 2]).2 ≤ 2 + 2 * 2 / 60 :=
  token_bucket_cumulative_bound 2 2 2 [0, 1, 2] (by decide)

/-! ## Matcher lemmas shared by claims C5 and C8 -/

/-- A track is always similar to itself and zero seconds away, so the
neighbor test is reflexive whenever the threshold is non-negative. -/
theorem simWithin_refl {threshold : ℚ} (t : Track) (h : 0 ≤ threshold) :
    simWithin threshold t t = true := by
  unfold simWithin isSimilarTo
  have h0 : timeDiff t t = 0 := by unfold timeDiff; omega
  rw [h0]
  simp [h]

/-- `list.remove` leaves a list without the removed value untouched. -/
theorem removeFirst_of_forall_ne (l : List Track) (t : Track)
    (h : ∀ x ∈ l, x ≠ t) : removeFirst l t = l := by
  induction l with
  | nil => rfl
  | cons x xs ih =>
    unfold removeFirst
    rw [if_neg (h x (List.mem_cons_self x xs))]
    rw [ih (fun y hy => h y (List.mem_cons_of_mem x hy))]

/-- `list.remove` of a freshly appended value removes exactly it. -/
theorem removeFirst_append_right (l : List Track) (t : Track)
    (h : ∀ x ∈ l, x ≠ t) : removeFirst (l ++ [t]) t = l := by
  induction l with
  | nil => simp [removeFirst]
  | cons x xs ih =>
    rw [List.cons_append]
    unfold removeFirst
    rw [if_neg (h x (List.mem_cons_self x xs))]
    rw [ih (fun y hy => h y (List.mem_cons_of_mem x hy))]

/-- Removing values distinct from the head walks past it. -/
theorem eraseAllFirst_cons_of_ne (S : List Track) (x : Track) (l : List Track)
    (h : ∀ s ∈ S, s ≠ x) :
    eraseAllFirst S (x :: l) = x :: eraseAllFirst S l := by
  induction S generalizing l with
  | nil => rfl
  | cons s S ih =>
    show eraseAllFirst S (removeFirst (x :: l) s) = x :: eraseAllFirst S (removeFirst l s)
    have hxs : ¬ x = s := fun hh => (h s (List.mem_cons_self s S)) hh.symm
    have hrf : removeFirst (x :: l) s = x :: removeFirst l s := by
      simp only [removeFirst]
      rw [if_neg hxs]
    rw [hrf]
    exact ih _ (fun y hy => h y (List.mem_cons_of_mem s hy))

/-- Removing, one by one, every element of `l` accepted by `p` leaves
exactly the elements rejected by `p` (removal matches values, and equal
values agree on `p`). -/
theorem eraseAllFirst_filter (p : Track → Bool) (l : List Track) :
    eraseAllFirst (l.filter p) l = l.filter (fun e => !(p e)) := by
  induction l with
  | nil => rfl
  | cons x xs ih =>
    by_cases hp : p x
    · rw [List.filter_cons_of_pos hp]
      unfold eraseAllFirst
      rw [List.foldl_cons]
      show eraseAllFirst (xs.filter p) (removeFirst (x :: xs) x) = _
      unfold removeFirst
      rw [if_pos rfl]
      rw [ih]
      rw [List.filter_cons_of_neg (by simp [hp])]
    · rw [List.filter_cons_of_neg hp]
      rw [eraseAllFirst_cons_of_ne _ _ _ ?hne]
      · rw [ih, List.filter_cons_of_pos (by simp [hp])]
      case hne =>
        intro s hs hsx
        rw [hsx] at hs
        exact hp (List.of_mem_filter hs)

/-- Python's keyed `max` picks an element of its argument. -/
theorem pyMaxByConfidence_mem (x : Track) (xs : List Track) :
    pyMaxByConfidence x xs ∈ x :: xs := by
  induction xs generalizing x with
  | nil => exact List.mem_singleton.mpr rfl
  | cons y ys ih =>
    rw [pyMaxByConfidence, List.foldl_cons]
    have h := ih (if x.confidence < y.confidence then y else x)
    rw [pyMaxByConfidence] at h
    rcases List.mem_cons.mp h with h' | h'
    · rw [h']
      by_cases hc : x.confidence < y.confidence
      · rw [if_pos hc]
        exact List.mem_cons_of_mem x (List.mem_cons_self y ys)
      · rw [if_neg hc]
        exact List.mem_cons_self x (y :: ys)
    · exact List.mem_cons_of_mem x (List.mem_cons_of_mem y h')

/-- Appending the incoming track last: it wins exactly when strictly above
the running maximum. -/
theorem pyMaxByConfidence_append_last (x : Track) (xs : List Track) (t : Track) :
    pyMaxByConfidence x (xs ++ [t]) =
      if (pyMaxByConfidence x xs).confidence < t.confidence then t
      else pyMaxByConfidence x xs := by
  unfold pyMaxByConfidence
  rw [List.foldl_append]
  rfl

/-- A strictly dominating incoming track is the keyed maximum. -/
theorem pyMaxByConfidence_of_strict (x : Track) (xs : List Track) (t : Track)
    (h : ∀ e ∈ x :: xs, e.confidence < t.confidence) :
    pyMaxByConfidence x (xs ++ [t]) = t := by
  rw [pyMaxByConfidence_append_last]
  exact if_pos (h _ (pyMaxByConfidence_mem x xs))

/-- `max` over the incoming track alone. -/
theorem pyMaxByConfidence_self (t : Track) : pyMaxByConfidence t [t] = t := by
  simp [pyMaxByConfidence]

/-- When `add_track` takes either adding branch (no neighbor, or the
incoming track is the keyed maximum), the working set becomes: the old
tracks that are not matched neighbors, with the incoming track appended. -/
theorem addTrack_added (st : MatcherState) (track : Track)
    (hconf : ¬ track.confidence < st.minConfidence)
    (hbranch :
      st.tracks.filter (fun e => simWithin st.timeThreshold track e) = [] ∨
      ∃ s ss, st.tracks.filter (fun e => simWithin st.timeThreshold track e) = s :: ss ∧
        pyMaxByConfidence s (ss ++ [track]) = track) :
    addTrack st track =
      { st with tracks :=
          st.tracks.filter (fun e => !(simWithin st.timeThreshold track e)) ++ [track] } := by
  unfold addTrack
  rw [if_neg hconf]
  rcases hbranch with hfil | ⟨s, ss, hfil, hbest⟩
  · rw [hfil]
    have hall : ∀ e ∈ st.tracks, ¬ simWithin st.timeThreshold track e = true := by
      intro e he
      exact List.filter_eq_nil_iff.mp hfil e he
    have : st.tracks.filter (fun e => !(simWithin st.timeThreshold track e)) =
        st.tracks := by
      apply List.filter_eq_self.mpr
      intro a ha
      simp [hall a ha]
    rw [this]
  · rw [hfil]
    show (if pyMaxByConfidence s (ss ++ [track]) = track then
        { st with tracks := eraseAllFirst (s :: ss) st.tracks ++ [track] }
      else st) = _
    rw [if_pos hbest]
    rw [← hfil, eraseAllFirst_filter]

/-- After an adding branch, the only matched neighbor left in the working
set is the incoming track itself. -/
theorem filter_sim_of_added (st : MatcherState) (track : Track)
    (hθ : 0 ≤ st.timeThreshold) :
    (st.tracks.filter (fun e => !(simWithin st.timeThreshold track e)) ++
        [track]).filter (fun e => simWithin st.timeThreshold track e) = [track] := by
  rw [List.filter_append]
  have hnil : (st.tracks.filter
      (fun e => !(simWithin st.timeThreshold track e))).filter
      (fun e => simWithin st.timeThreshold track e) = [] := by
    apply List.filter_eq_nil_iff.mpr
    intro a ha
    have h := List.of_mem_filter ha
    simp only [Bool.not_eq_true'] at h
    simp [h]
  rw [hnil]
  simp [simWithin_refl track hθ]

/-- When a neighbor set is found and the keyed maximum is not the incoming
track, `add_track` leaves the state unchanged. -/
theorem addTrack_discarded (st : MatcherState) (track s : Track) (ss : List Track)
    (hconf : ¬ track.confidence < st.minConfidence)
    (hfil : st.tracks.filter (fun e => simWithin st.timeThreshold track e) = s :: ss)
    (hbest : pyMaxByConfidence s (ss ++ [track]) ≠ track) :
    addTrack st track = st := by
  unfold addTrack
  rw [if_neg hconf, hfil]
  show (if pyMaxByConfidence s (ss ++ [track]) = track then
      { st with tracks := eraseAllFirst (s :: ss) st.tracks ++ [track] }
    else st) = st
  rw [if_neg hbest]

/-- `add_track` is the identity as soon as the filter returns exactly the
incoming track and removing it undoes the append. -/
theorem addTrack_eq_of_parts (st2 : MatcherState) (track : Track)
    (hconf2 : ¬ track.confidence < st2.minConfidence)
    (hfil2 : st2.tracks.filter (fun e => simWithin st2.timeThreshold track e) = [track])
    (h3 : removeFirst st2.tracks track ++ [track] = st2.tracks) :
    addTrack st2 track = st2 := by
  unfold addTrack
  rw [if_neg hconf2, hfil2]
  show (if pyMaxByConfidence track ([] ++ [track]) = track then
      { st2 with tracks := eraseAllFirst [track] st2.tracks ++ [track] }
    else st2) = st2
  rw [List.nil_append, pyMaxByConfidence_self, if_pos rfl]
  show { st2 with tracks := removeFirst st2.tracks track ++ [track] } = st2
  rw [h3]

/-- A second `add_track` of the same track right after an adding branch
changes nothing. -/
theorem addTrack_after_added (st : MatcherState) (track : Track)
    (hθ : 0 ≤ st.timeThreshold)
    (hconf : ¬ track.confidence < st.minConfidence)
    (h1 : addTrack st track =
      { st with tracks :=
          st.tracks.filter (fun e => !(simWithin st.timeThreshold track e)) ++ [track] }) :
    addTrack (addTrack st track) track = addTrack st track := by
  rw [h1]
  have h3 : removeFirst
      (st.tracks.filter (fun e => !(simWithin st.timeThreshold track e)) ++ [track])
      track = st.tracks.filter (fun e => !(simWithin st.timeThreshold track e)) := by
    apply removeFirst_append_right
    intro x hx hxe
    have hmem := List.of_mem_filter hx
    rw [hxe, simWithin_refl track hθ] at hmem
    simp at hmem
  exact addTrack_eq_of_parts _ track hconf (filter_sim_of_added st track hθ)
    (by rw [h3])

/-! ## Claim C8: add_track idempotence -/

/-- C8 (confirmed): feeding the identical track twice is the same as
feeding it once (the second feed finds the first as a zero-distance
neighbor, replaces it by its own value, and the working set is unchanged);
in particular no duplicate entry is created.  The working threshold is
non-negative, as the configuration validation enforces (0.0 to 300.0). -/
theorem add_track_idempotent (st : MatcherState) (track : Track)
    (hθ : 0 ≤ st.timeThreshold) :
    addTrack (addTrack st track) track = addTrack st track := by
  by_cases hconf : track.confidence < st.minConfidence
  · have h1 : addTrack st track = st := by
      unfold addTrack
      rw [if_pos hconf]
    rw [h1]
    exact h1
  · cases hfil : st.tracks.filter (fun e => simWithin st.timeThreshold track e) with
    | nil =>
      exact addTrack_after_added st track hθ hconf
        (addTrack_added st track hconf (Or.inl hfil))
    | cons s ss =>
      by_cases hbest : pyMaxByConfidence s (ss ++ [track]) = track
      · exact addTrack_after_added st track hθ hconf
          (addTrack_added st track hconf (Or.inr ⟨s, ss, hfil, hbest⟩))
      · have h1 := addTrack_discarded st track s ss hconf hfil hbest
        rw [h1]
        exact h1

/-- A sample track and empty matcher used for the C8 witness. -/
def sampleTrack : Track :=
  { songName := "Song", artist := "Artist", timeInMix := "00:00:10", confidence := 80 }

/-- The matcher as freshly constructed with a 30-second threshold. -/
def freshMatcher : MatcherState := initMatcher 30

/-- C8 (witness): double add at a concrete track leaves exactly one entry. -/
theorem add_track_idempotent_w :
    addTrack (addTrack freshMatcher sampleTrack) sampleTrack =
      addTrack freshMatcher sampleTrack ∧
    (addTrack (addTrack freshMatcher sampleTrack) sampleTrack).tracks =
      [sampleTrack] := by
  refine ⟨add_track_idempotent freshMatcher sampleTrack (by norm_num [freshMatcher, initMatcher]), ?_⟩
  decide

/-! ## Claim C5: replacement decision on a matched neighborhood -/

/-- The neighbor of the C5 counterexample. -/
def tieNeighbor : Track :=
  { songName := "Song", artist := "Artist", timeInMix := "00:00:00", confidence := 80 }

/-- The incoming track of the C5 counterexample: same song, ten seconds
later, the same (hence maximal) confidence, but not field-identical. -/
def tieIncoming : Track :=
  { songName := "Song", artist := "Artist", timeInMix := "00:00:10", confidence := 80 }

/-- The C5 counterexample working set. -/
def tieState : MatcherState :=
  { tracks := [tieNeighbor], timeThreshold := 30, minConfidence := 0 }

/-- C5 (counterexample): the incoming track attains the maximum confidence
among the matched neighbors and itself (a tie), yet `add_track` discards it
and leaves the working set unchanged — Python's `max` returns the first
maximal element, the neighbor, and the identity test `best_track == track`
fails. -/
theorem add_track_tie_discard_cx :
    tieState.tracks.filter (fun e => simWithin tieState.timeThreshold tieIncoming e) =
      [tieNeighbor] ∧
    tieNeighbor.confidence ≤ tieIncoming.confidence ∧
    addTrack tieState tieIncoming = tieState := by decide

/-- C5 (amended): with a matched neighborhood present, the incoming track
replaces all matched neighbors (they are removed, it is appended) when its
confidence is *strictly* greater than every neighbor's; and whenever the
first maximum-confidence element of `neighbors ++ [incoming]` is not
field-for-field equal to the incoming track, the incoming track is
discarded and the working set is unchanged.  On a confidence tie with a
non-identical neighbor the incoming track is therefore discarded. -/
theorem add_track_replace_or_discard (st : MatcherState) (track s : Track)
    (ss : List Track)
    (hθ : 0 ≤ st.timeThreshold)
    (hconf : ¬ track.confidence < st.minConfidence)
    (hfil : st.tracks.filter (fun e => simWithin st.timeThreshold track e) = s :: ss) :
    ((∀ e ∈ s :: ss, e.confidence < track.confidence) →
      addTrack st track =
        { st with tracks :=
            st.tracks.filter (fun e => !(simWithin st.timeThreshold track e)) ++
              [track] } ∧
      (addTrack st track).tracks.filter
        (fun e => simWithin st.timeThreshold track e) = [track]) ∧
    (pyMaxByConfidence s (ss ++ [track]) ≠ track → addTrack st track = st) := by
  constructor
  · intro hdom
    have hbest := pyMaxByConfidence_of_strict s ss track hdom
    have h1 := addTrack_added st track hconf (Or.inr ⟨s, ss, hfil, hbest⟩)
    refine ⟨h1, ?_⟩
    rw [h1]
    exact filter_sim_of_added st track hθ
  · exact addTrack_discarded st track s ss hconf hfil

/-- The strictly stronger incoming track for the C5 witness. -/
def strongIncoming : Track :=
  { songName := "Song", artist := "Artist", timeInMix := "00:00:10", confidence := 90 }

/-- C5 (witness): a strictly dominating incoming track replaces its
neighbor, by `add_track_replace_or_discard`. -/
theorem add_track_replace_or_discard_w :
    addTrack tieState strongIncoming =
      { tieState with tracks := [strongIncoming] } := by
  have h := (add_track_replace_or_discard tieState strongIncoming tieNeighbor []
      (by norm_num [tieState]) (by norm_num [tieState, strongIncoming])
      (by decide)).1 (by decide)
  rw [h.1]
  decide

/-! ## Claim C4: get_unique_tracks -/

/-- The sort key order of `get_unique_tracks`. -/
def timeLe (a b : Track) : Prop := timeToSeconds a ≤ timeToSeconds b

/-- Distinct dedup keys, the final shape of the collapsed list. -/
def keyNe (a b : Track) : Prop := uniqueKey a ≠ uniqueKey b

/-- Stable insertion is a permutation with the inserted element. -/
theorem insertByTime_perm (t : Track) (l : List Track) :
    (insertByTime t l).Perm (t :: l) := by
  induction l with
  | nil => exact List.Perm.refl _
  | cons x xs ih =>
    unfold insertByTime
    by_cases h : timeToSeconds t < timeToSeconds x
    · rw [if_pos h]
    · rw [if_neg h]
      exact (ih.cons x).trans (List.Perm.swap t x xs)

/-- The sorting fold permutes the accumulator and the input. -/
theorem sortFold_perm (l : List Track) :
    ∀ acc : List Track,
      (l.foldl (fun acc t => insertByTime t acc) acc).Perm (acc ++ l) := by
  induction l with
  | nil => intro acc; simp
  | cons x xs ih =>
    intro acc
    rw [List.foldl_cons]
    refine (ih (insertByTime x acc)).trans
      (((insertByTime_perm x acc).append_right xs).trans ?_)
    rw [List.cons_append]
    exact List.perm_middle.symm

/-- `sorted(...)` returns a permutation of its input. -/
theorem sortTracksByTime_perm (l : List Track) :
    (sortTracksByTime l).Perm l := by
  have h := sortFold_perm l []
  rwa [List.nil_append] at h

/-- Stable insertion preserves sortedness by the time key. -/
theorem insertByTime_sorted (t : Track) (l : List Track)
    (h : l.Sorted timeLe) : (insertByTime t l).Sorted timeLe := by
  induction l with
  | nil => simp [insertByTime, List.Sorted]
  | cons x xs ih =>
    rw [List.sorted_cons] at h
    unfold insertByTime
    by_cases hlt : timeToSeconds t < timeToSeconds x
    · rw [if_pos hlt]
      rw [List.sorted_cons]
      refine ⟨?_, ?_⟩
      · intro b hb
        rcases List.mem_cons.mp hb with rfl | hb
        · exact Nat.le_of_lt hlt
        · exact Nat.le_trans (Nat.le_of_lt hlt) (h.1 b hb)
      · rw [List.sorted_cons]
        exact h
    · rw [if_neg hlt]
      rw [List.sorted_cons]
      refine ⟨?_, ih h.2⟩
      intro b hb
      rcases List.mem_cons.mp ((insertByTime_perm t xs).mem_iff.mp hb) with rfl | hb
      · exact Nat.le_of_not_lt hlt
      · exact h.1 b hb

/-- The sorting fold keeps the accumulator sorted. -/
theorem sortFold_sorted (l : List Track) :
    ∀ acc : List Track, acc.Sorted timeLe →
      (l.foldl (fun acc t => insertByTime t acc) acc).Sorted timeLe := by
  induction l with
  | nil => intro acc h; exact h
  | cons x xs ih =>
    intro acc h
    rw [List.foldl_cons]
    exact ih _ (insertByTime_sorted x acc h)

/-- The model of Python `sorted` by time key yields a sorted list. -/
theorem sortTracksByTime_sorted (l : List Track) :
    (sortTracksByTime l).Sorted timeLe :=
  sortFold_sorted l [] (List.sorted_nil)

/-- `removeFirst` is a sublist. -/
theorem removeFirst_sublist (l : List Track) (t : Track) :
    (removeFirst l t).Sublist l := by
  induction l with
  | nil => exact List.Sublist.refl _
  | cons x xs ih =>
    unfold removeFirst
    by_cases h : x = t
    · rw [if_pos h]
      exact List.sublist_cons_self x xs
    · rw [if_neg h]
      exact List.Sublist.cons₂ x ih

/-- A value different from the removed one survives `removeFirst`. -/
theorem mem_removeFirst_of_ne {v u : Track} (l : List Track)
    (hne : v ≠ u) (hv : v ∈ l) : v ∈ removeFirst l u := by
  induction l with
  | nil => cases hv
  | cons x xs ih =>
    unfold removeFirst
    by_cases h : x = u
    · rw [if_pos h]
      rcases List.mem_cons.mp hv with rfl | hv
      · exact absurd h hne
      · exact hv
    · rw [if_neg h]
      rcases List.mem_cons.mp hv with rfl | hv
      · exact List.mem_cons_self v _
      · exact List.mem_cons_of_mem x (ih hv)

/-- In a list with pairwise-distinct keys, a key determines the element. -/
theorem pairwise_key_unique {acc : List Track} (h : acc.Pairwise keyNe) :
    ∀ t ∈ acc, ∀ u ∈ acc, uniqueKey t = uniqueKey u → t = u := by
  induction acc with
  | nil => intro t ht; cases ht
  | cons a rest ih =>
    rw [List.pairwise_cons] at h
    intro t ht u hu hk
    rcases List.mem_cons.mp ht with rfl | htr
    · rcases List.mem_cons.mp hu with rfl | hur
      · rfl
      · exact absurd hk (h.1 u hur)
    · rcases List.mem_cons.mp hu with rfl | hur
      · exact absurd hk.symm (h.1 t htr)
      · exact ih h.2 t htr u hur hk

/-- After removing the unique holder of a key, no element of that key
remains. -/
theorem removeFirst_key_gone {acc : List Track} (h : acc.Pairwise keyNe)
    {u : Track} (hu : u ∈ acc) :
    ∀ v ∈ removeFirst acc u, uniqueKey v ≠ uniqueKey u := by
  induction acc with
  | nil => cases hu
  | cons a rest ih =>
    rw [List.pairwise_cons] at h
    unfold removeFirst
    by_cases ha : a = u
    · rw [if_pos ha]
      intro v hv
      subst ha
      exact fun hk => (h.1 v hv) hk.symm
    · rw [if_neg ha]
      intro v hv
      have hurest : u ∈ rest := by
        rcases List.mem_cons.mp hu with rfl | h'
        · exact absurd rfl ha
        · exact h'
      rcases List.mem_cons.mp hv with rfl | hv
      · exact h.1 u hurest
      · exact ih h.2 hurest v hv

/-- One dedup step preserves the three working invariants: pairwise-distinct
keys, each kept element being a processed element of maximal confidence for
its key, and every processed key being represented. -/
theorem uniqueStep_invariant (processed acc : List Track) (x : Track)
    (h1 : acc.Pairwise keyNe)
    (h2 : ∀ t ∈ acc, t ∈ processed ∧
      ∀ u ∈ processed, uniqueKey u = uniqueKey t → u.confidence ≤ t.confidence)
    (h3 : ∀ u ∈ processed, ∃ t ∈ acc, uniqueKey t = uniqueKey u) :
    (uniqueStep acc x).Pairwise keyNe ∧
    (∀ t ∈ uniqueStep acc x, t ∈ processed ++ [x] ∧
      ∀ u ∈ processed ++ [x], uniqueKey u = uniqueKey t →
        u.confidence ≤ t.confidence) ∧
    (∀ u ∈ processed ++ [x], ∃ t ∈ uniqueStep acc x,
      uniqueKey t = uniqueKey u) := by
  unfold uniqueStep
  cases hf : acc.find? (fun u => uniqueKey u == uniqueKey x) with
  | none =>
    have hnone : ∀ u ∈ acc, uniqueKey u ≠ uniqueKey x := by
      intro u hu
      have := List.find?_eq_none.mp hf u hu
      simpa using this
    refine ⟨?_, ?_, ?_⟩
    · rw [List.pairwise_append]
      refine ⟨h1, List.pairwise_singleton _ _, ?_⟩
      intro a ha b hb
      rw [List.mem_singleton.mp hb]
      exact hnone a ha
    · intro t ht
      rcases List.mem_append.mp ht with ht | ht
      · obtain ⟨hp, hmax⟩ := h2 t ht
        refine ⟨List.mem_append_left _ hp, ?_⟩
        intro u hu hk
        rcases List.mem_append.mp hu with hu | hu
        · exact hmax u hu hk
        · rw [List.mem_singleton.mp hu] at hk ⊢
          exact absurd hk.symm (hnone t ht)
      · rw [List.mem_singleton.mp ht]
        refine ⟨List.mem_append_right _ (List.mem_singleton.mpr rfl), ?_⟩
        intro u hu hk
        rcases List.mem_append.mp hu with hu | hu
        · obtain ⟨w, hw, hwk⟩ := h3 u hu
          exact absurd (hwk.trans hk) (hnone w hw)
        · rw [List.mem_singleton.mp hu]
    · intro u hu
      rcases List.mem_append.mp hu with hu | hu
      · obtain ⟨t, htacc, htk⟩ := h3 u hu
        exact ⟨t, List.mem_append_left _ htacc, htk⟩
      · rw [List.mem_singleton.mp hu]
        exact ⟨x, List.mem_append_right _ (List.mem_singleton.mpr rfl), rfl⟩
  | some u =>
    have hkey : uniqueKey u = uniqueKey x := by
      have := List.find?_some hf
      simpa using this
    have humem : u ∈ acc := List.mem_of_find?_eq_some hf
    dsimp only
    by_cases hcf : u.confidence < x.confidence
    · rw [if_pos hcf]
      have hgone := removeFirst_key_gone h1 humem
      refine ⟨?_, ?_, ?_⟩
      · rw [List.pairwise_append]
        refine ⟨List.Pairwise.sublist (removeFirst_sublist acc u) h1,
          List.pairwise_singleton _ _, ?_⟩
        intro a ha b hb
        rw [List.mem_singleton.mp hb]
        exact fun hk => (hgone a ha) (hk.trans hkey.symm)
      · intro t ht
        rcases List.mem_append.mp ht with ht | ht
        · have htacc : t ∈ acc := (removeFirst_sublist acc u).subset ht
          obtain ⟨hp, hmax⟩ := h2 t htacc
          refine ⟨List.mem_append_left _ hp, ?_⟩
          intro v hv hk
          rcases List.mem_append.mp hv with hv | hv
          · exact hmax v hv hk
          · rw [List.mem_singleton.mp hv] at hk ⊢
            exact absurd (hkey.trans hk).symm (hgone t ht)
        · rw [List.mem_singleton.mp ht]
          refine ⟨List.mem_append_right _ (List.mem_singleton.mpr rfl), ?_⟩
          intro v hv hk
          rcases List.mem_append.mp hv with hv | hv
          · have := (h2 u humem).2 v hv (hk.trans hkey.symm)
            exact le_of_lt (lt_of_le_of_lt this hcf)
          · rw [List.mem_singleton.mp hv]
      · intro w hw
        rcases List.mem_append.mp hw with hw | hw
        · obtain ⟨t, htacc, htk⟩ := h3 w hw
          by_cases hku : uniqueKey t = uniqueKey u
          · refine ⟨x, List.mem_append_right _ (List.mem_singleton.mpr rfl), ?_⟩
            exact hkey.symm.trans (hku.symm.trans htk)
          · have htne : t ≠ u := fun hh => hku (hh ▸ rfl)
            exact ⟨t, List.mem_append_left _ (mem_removeFirst_of_ne acc htne htacc),
              htk⟩
        · rw [List.mem_singleton.mp hw]
          exact ⟨x, List.mem_append_right _ (List.mem_singleton.mpr rfl), rfl⟩
    · rw [if_neg hcf]
      refine ⟨h1, ?_, ?_⟩
      · intro t ht
        obtain ⟨hp, hmax⟩ := h2 t ht
        refine ⟨List.mem_append_left _ hp, ?_⟩
        intro v hv hk
        rcases List.mem_append.mp hv with hv | hv
        · exact hmax v hv hk
        · rw [List.mem_singleton.mp hv] at hk ⊢
          have htu : t = u :=
            pairwise_key_unique h1 t ht u humem (hk.symm.trans hkey.symm)
          rw [htu]
          exact le_of_not_lt hcf
      · intro w hw
        rcases List.mem_append.mp hw with hw | hw
        · exact h3 w hw
        · rw [List.mem_singleton.mp hw]
          exact ⟨u, humem, hkey⟩

/-- The dedup loop carries its invariants across the whole input. -/
theorem uniqueFold_invariant (rest : List Track) :
    ∀ processed acc : List Track,
      acc.Pairwise keyNe →
      (∀ t ∈ acc, t ∈ processed ∧
        ∀ u ∈ processed, uniqueKey u = uniqueKey t → u.confidence ≤ t.confidence) →
      (∀ u ∈ processed, ∃ t ∈ acc, uniqueKey t = uniqueKey u) →
      (rest.foldl uniqueStep acc).Pairwise keyNe ∧
      (∀ t ∈ rest.foldl uniqueStep acc, t ∈ processed ++ rest ∧
        ∀ u ∈ processed ++ rest, uniqueKey u = uniqueKey t →
          u.confidence ≤ t.confidence) ∧
      (∀ u ∈ processed ++ rest, ∃ t ∈ rest.foldl uniqueStep acc,
        uniqueKey t = uniqueKey u) := by
  induction rest with
  | nil =>
    intro processed acc h1 h2 h3
    simpa using ⟨h1, h2, h3⟩
  | cons x rest ih =>
    intro processed acc h1 h2 h3
    obtain ⟨g1, g2, g3⟩ := uniqueStep_invariant processed acc x h1 h2 h3
    have hrec := ih (processed ++ [x]) (uniqueStep acc x) g1 g2 g3
    rw [List.foldl_cons]
    simpa [List.append_assoc] using hrec

/-- C4 (amended): `get_unique_tracks` returns a list sorted by time in mix
ascending whose dedup keys (`artist.lower() + "|" + song_name.lower()`) are
pairwise distinct; every returned track belongs to the working set and has
maximal confidence among all working-set tracks sharing its key, and every
working-set key is represented.  Tracks are thus collapsed by that joined
lowercased key — a coarser relation than exact (artist, title) equality,
which also merges distinct pairs whose concatenations collide. -/
theorem get_unique_tracks_sorted_dedup (l : List Track) :
    (getUniqueTracks l).Sorted timeLe ∧
    (getUniqueTracks l).Pairwise keyNe ∧
    (∀ t ∈ getUniqueTracks l, t ∈ l ∧
      ∀ u ∈ l, uniqueKey u = uniqueKey t → u.confidence ≤ t.confidence) ∧
    (∀ u ∈ l, ∃ t ∈ getUniqueTracks l, uniqueKey t = uniqueKey u) := by
  have hsl := sortTracksByTime_perm l
  obtain ⟨g1, g2, g3⟩ := uniqueFold_invariant (sortTracksByTime l) [] []
    List.Pairwise.nil (by intro t ht; cases ht) (by intro u hu; cases hu)
  have hout : (getUniqueTracks l).Perm
      ((sortTracksByTime l).foldl uniqueStep []) := sortTracksByTime_perm _
  refine ⟨sortTracksByTime_sorted _, ?_, ?_, ?_⟩
  · exact (List.Perm.pairwise_iff (fun {_ _} h => Ne.symm h) hout).mpr g1
  · intro t ht
    obtain ⟨hp, hmax⟩ := g2 t (hout.mem_iff.mp ht)
    rw [List.nil_append] at hp
    refine ⟨hsl.mem_iff.mp hp, ?_⟩
    intro u hu hk
    exact hmax u (by rw [List.nil_append]; exact hsl.mem_iff.mpr hu) hk
  · intro u hu
    obtain ⟨t, htD, htk⟩ :=
      g3 u (by rw [List.nil_append]; exact hsl.mem_iff.mpr hu)
    exact ⟨t, hout.mem_iff.mpr htD, htk⟩

/-- First colliding track: artist `"a|b"`, title `"c"`. -/
def collideA : Track :=
  { songName := "c", artist := "a|b", timeInMix := "00:00:00", confidence := 50 }

/-- Second colliding track: artist `"a"`, title `"b|c"` — a different
(artist, title) pair with the same joined dedup key. -/
def collideB : Track :=
  { songName := "b|c", artist := "a", timeInMix := "00:10:00", confidence := 40 }

/-- C4 (counterexample): the dedup key is the string concatenation
`artist.lower() + "|" + song_name.lower()`, so the two distinct
(artist, title) pairs `("a|b", "c")` and `("a", "b|c")` collide; the second
track is dropped although it is not an exact (artist, title) duplicate of
the first — its pair is entirely absent from the output. -/
theorem unique_tracks_key_collision_cx :
    (collideA.artist ≠ collideB.artist ∧ collideA.songName ≠ collideB.songName) ∧
    uniqueKey collideA = uniqueKey collideB ∧
    getUniqueTracks [collideA, collideB] = [collideA] := by decide

end Tracklistify
